import Mathlib

/-!
Verification of the newsb-dl podcast downloader against its specification.

The definitions below are a shallow embedding of the Go source (the current
version of `newsb-dl.go`, the one with `QueueEntry`, `nextFile`,
`rewriteQueue` and `log`).  Strings are Lean `String`s; the character-level
helpers `trimChars`/`fieldsAux` reimplement Go's `strings.TrimSpace` and
`strings.Fields` by structural recursion so that all definitions evaluate
inside the kernel.  File systems are association lists from paths to file
contents.  Concurrency (one goroutine per host group) is embedded as the set
of interleavings of the per-worker event traces.
-/

namespace NewsbDl

/-! ## String helpers: Go's strings.TrimSpace and strings.Fields -/

/-- Drop leading whitespace characters from a character list. -/
def dropWs : List Char → List Char
  | [] => []
  | c :: cs => if c.isWhitespace then dropWs cs else c :: cs

/-- Trim whitespace from both ends, as Go's strings.TrimSpace does. -/
def trimChars (l : List Char) : List Char :=
  ((dropWs l).reverse |> dropWs).reverse

/-- Embedding of Go `strings.TrimSpace`. -/
def strTrim (s : String) : String := ⟨trimChars s.data⟩

/-- Accumulator pass for `strFields`: split on whitespace runs, dropping
empty fields, exactly as Go's `strings.Fields`. -/
def fieldsAux : List Char → List Char → List (List Char)
  | [], cur => if cur = [] then [] else [cur.reverse]
  | c :: cs, cur =>
    if c.isWhitespace then
      (if cur = [] then fieldsAux cs [] else cur.reverse :: fieldsAux cs [])
    else fieldsAux cs (c :: cur)

/-- Embedding of Go `strings.Fields`. -/
def strFields (s : String) : List String := (fieldsAux s.data []).map (fun l => ⟨l⟩)

/-! ## Data model -/

/-- The parts of Go's `url.URL` this program uses: the host (grouping key)
and the full string form. -/
structure URL where
  host : String
  full : String
deriving DecidableEq, Repr

/-- `QueueEntry` from the source: parsed URL plus the (trimmed) queue line
it came from (field `entry` in the Go code, `rawLine` in the spec). -/
structure QueueEntry where
  url : URL
  entry : String
deriving DecidableEq, Repr

/-- The host of an entry's URL, the grouping key used by `downloadAll`. -/
def QueueEntry.host (e : QueueEntry) : String := e.url.host

/-! ## readQueue (QueueSource)

Embedding of the source's `readQueue` loop body:

    line := strings.TrimSpace(scan.Text())
    urlstr := strings.Fields(line)[0]
    if urlstr == "" || urlset.Has(urlstr) { continue }
    urlset.Add(urlstr)
    u, err := url.Parse(urlstr); fail(err)
    entries = append(entries, &QueueEntry{u, line})

`strings.Fields(line)[0]` panics (index out of range) when `line` trims to
nothing, so the embedding returns `none` for such a file.  `url.Parse` is
abstracted as a total `parse` parameter (a parse failure aborts via `fail`
and does not reach the entry list). -/
def readQueueGo (parse : String → URL) (seen : List String) :
    List String → Option (List QueueEntry)
  | [] => some []
  | l :: ls =>
    let line := strTrim l
    match strFields line with
    | [] => none
    | urlstr :: _ =>
      if urlstr = "" ∨ urlstr ∈ seen then
        readQueueGo parse seen ls
      else
        match readQueueGo parse (urlstr :: seen) ls with
        | none => none
        | some es => some ({ url := parse urlstr, entry := line } :: es)

/-- `readQueue`, reading an already-split list of file lines. -/
def readQueue (parse : String → URL) (lines : List String) : Option (List QueueEntry) :=
  readQueueGo parse [] lines

/-- The first whitespace-delimited token of a line (after trimming), or ""
for a blank line.  This is the key `readQueue` de-duplicates on. -/
def lineTok (l : String) : String := (strFields (strTrim l)).headD ""

/-- First-occurrence de-duplication with an explicit seen set. -/
def dedupFirstGo (seen : List String) : List String → List String
  | [] => []
  | x :: xs => if x ∈ seen then dedupFirstGo seen xs else x :: dedupFirstGo (x :: seen) xs

/-- Keep the first occurrence of every string, in order. -/
def dedupFirst (l : List String) : List String := dedupFirstGo [] l

/-! ## Download results and rewriteQueue (Reconciler) -/

/-- The completed-download record as the Reconciler sees it: the parsed URL,
the queue line it came from, and the outcome (`none` = success, `some msg` =
failure), mirroring fields `url`, `entry`, `err` of the Go `Download`. -/
structure DlRec where
  url : URL
  entry : String
  err : Option String
deriving DecidableEq, Repr

/-- Embedding of `rewriteQueue`: collect the `entry` strings of succeeded
downloads, then keep exactly the file lines whose trimmed form is not in
that success set (the Go code trims each re-read line and writes the kept,
trimmed lines back). -/
def rewriteQueue (fileLines : List String) (results : List DlRec) : List String :=
  let successes := (results.filter (fun dl => dl.err = none)).map (fun dl => dl.entry)
  (fileLines.map strTrim).filter (fun line => line ∉ successes)

/-! ## downloadAll's host partition (HostScheduler)

Embedding of

    hosts := map[string]Downloads{}
    for _, e := range entries {
      host := hosts[e.url.Host]
      host.Push(&Download{url: e.url, entry: e.entry, dir: dir})
      hosts[e.url.Host] = host
    }

as an association list in first-seen host order (the Go map's iteration
order is irrelevant to the claims). -/

/-- Add one entry to the host map: append to its host's group, or create a
new group at the end. -/
def insertEntry : List (String × List QueueEntry) → QueueEntry → List (String × List QueueEntry)
  | [], e => [(e.host, [e])]
  | (h, g) :: rest, e =>
    if e.host = h then (h, g ++ [e]) :: rest else (h, g) :: insertEntry rest e

/-- Fold of `insertEntry` over the entry list, the loop of `downloadAll`. -/
def groupAux : List QueueEntry → List (String × List QueueEntry) → List (String × List QueueEntry)
  | [], acc => acc
  | e :: es, acc => groupAux es (insertEntry acc e)

/-- The host partition built by `downloadAll` before any worker starts. -/
def groupByHost (es : List QueueEntry) : List (String × List QueueEntry) :=
  groupAux es []

/-- Reading the host map: the group stored under a host, if any. -/
def alookup (h : String) : List (String × List QueueEntry) → Option (List QueueEntry)
  | [] => none
  | (k, v) :: rest => if h = k then some v else alookup h rest

/-- `downloadAll` then launches exactly one worker goroutine per group;
the number of workers is the number of groups. -/
def numWorkers (es : List QueueEntry) : Nat := (groupByHost es).length

/-! ## Worker traces and interleavings (downloadByHost concurrency)

A worker (`downloadByHost`) handles its group strictly sequentially: each
loop iteration fully processes one download (record `startedAt`, HTTP GET,
save, send on the results channel) before the next begins.  Its observable
trace is `start, done, start, done, …` with its own host on every event.
An execution of `downloadAll` is any interleaving of the workers' traces. -/

/-- One worker-visible event: item `idx` of host `host`'s group begins or
finishes processing. -/
inductive Ev where
  | start (host : String) (idx : Nat)
  | done (host : String) (idx : Nat)
deriving DecidableEq, Repr

/-- The host an event belongs to. -/
def Ev.evHost : Ev → String
  | .start h _ => h
  | .done h _ => h

/-- Is the event a `start`? -/
def Ev.isStartEv : Ev → Bool
  | .start _ _ => true
  | .done _ _ => false

/-- The sequential trace of a worker for host `h`, items `i, i+1, …` (`k`
of them): each item starts and finishes before the next starts. -/
def workerTraceFrom (h : String) : Nat → Nat → List Ev
  | _, 0 => []
  | i, k + 1 => Ev.start h i :: Ev.done h i :: workerTraceFrom h (i + 1) k

/-- The full trace of the worker for host `h` over a group of `k` items. -/
def workerTrace (h : String) (k : Nat) : List Ev := workerTraceFrom h 0 k

/-- The per-worker traces of a run of `downloadAll` on `es`: one sequential
worker per host group. -/
def tracesOf (es : List QueueEntry) : List (List Ev) :=
  (groupByHost es).map (fun g => workerTrace g.1 g.2.length)

/-- `tagged` is an interleaving of `traces`: every event is tagged with the
worker it came from, and the subsequence of each worker's events is exactly
that worker's trace.  This is the set of possible global schedules of the
independent goroutines. -/
@[reducible] def IsInterleaving (traces : List (List Ev)) (tagged : List (Nat × Ev)) : Prop :=
  (∀ p ∈ tagged, p.1 < traces.length) ∧
  (∀ j ∈ List.range traces.length,
    (tagged.filter (fun p => p.1 == j)).map Prod.snd = traces.getD j [])

/-- Number of `start` events of host `h` in a schedule segment. -/
def nStart (h : String) (l : List Ev) : Nat :=
  (l.filter (fun e => e.evHost == h)).countP Ev.isStartEv

/-- Number of `done` events of host `h` in a schedule segment. -/
def nDone (h : String) (l : List Ev) : Nat :=
  (l.filter (fun e => e.evHost == h)).countP (fun e => !e.isStartEv)

/-! ## downloadByHost's per-item handling (Fetcher result and body close)

Embedding of the loop body

    r, err := httpGet(dl.url.String())
    switch {
    case err != nil:                    dl.err = err
    case r.StatusCode != http.StatusOK: dl.err = errors.New(...)
    default:                            dl.err = saveAudio(r.Body, dl)
    }
    if r != nil { r.Body.Close() }

`httpGet` returns either a transport error (no response object, `r = nil`)
or a response with a status code; `closes` counts the `Close` calls made on
that response's body during the item's processing (`saveAudio` reads the
body but never closes it). -/

/-- Outcome of the HTTP GET: transport error (nil response) or a response
object carrying a status code, status line and body. -/
inductive FetchResult where
  | netErr (msg : String)
  | resp (status : Nat) (statusLine : String) (body : String)
deriving DecidableEq, Repr

/-- Did the GET produce a response object (`r != nil`)? -/
def FetchResult.isResp : FetchResult → Bool
  | .netErr _ => false
  | .resp _ _ _ => true

/-- Result of processing one download: the recorded error and the number of
`Close` calls performed on the response body. -/
structure StepOut where
  err : Option String
  closes : Nat
deriving DecidableEq, Repr

/-- One iteration of `downloadByHost`'s loop.  `saveErr` is the result
`saveAudio` would return for this item (only consulted on a 200 status). -/
def processDownload (fetched : FetchResult) (saveErr : Option String) : StepOut :=
  match fetched with
  | .netErr m => { err := some m, closes := 0 }
  | .resp status line _ =>
    { err := if status ≠ 200 then some ("HTTP status: " ++ line) else saveErr
      closes := 1 }

/-- The whole `downloadByHost` loop over a group, as the list of per-item
outcomes (`fetch` and `save` abstract the network and the disk). -/
def downloadByHost (fetch : URL → FetchResult) (save : URL → Option String)
    (dls : List URL) : List StepOut :=
  dls.map (fun u => processDownload (fetch u) (save u))

/-! ## saveAudio and nextFile (AudioWriter)

The file system is an association list `path ↦ contents`.  `nextFile`
embeds the collision loop

    base := path; n := 1
    for { file, err := os.OpenFile(path, O_WRONLY|O_CREATE|O_EXCL, 0600)
          if os.IsExist(err) { path = fmt.Sprintf("%s.%d", base, n); n += 1; continue }
          ...; return file, path, nil }

with explicit fuel standing for the unbounded retry loop (the spec itself
asks for a large finite retry bound). -/

/-- A file system: existing paths with their contents. -/
abbrev FS := List (String × String)

/-- The `n`-th candidate path tried by `nextFile`: the base path itself,
then `base.1`, `base.2`, …. -/
def cand (base : String) : Nat → String
  | 0 => base
  | n + 1 => base ++ "." ++ Nat.repr (n + 1)

/-- The retry loop of `nextFile`: try `path`, on collision move to the next
suffixed candidate.  Creates (O_CREATE|O_EXCL) the first free path empty. -/
def nextFileGo (fs : FS) (base : String) : Nat → String → Nat → Option (String × FS)
  | 0, _, _ => none
  | fuel + 1, path, n =>
    if path ∈ fs.map Prod.fst then
      nextFileGo fs base fuel (base ++ "." ++ Nat.repr n) (n + 1)
    else
      some (path, (path, "") :: fs)

/-- `nextFile` from the source: find and create the first unused candidate
for `path`. -/
def nextFile (fuel : Nat) (fs : FS) (path : String) : Option (String × FS) :=
  nextFileGo fs path fuel path 1

/-- Overwrite the contents stored at path `p` (the file was already
created, so the key is present). -/
def fsWrite (p d : String) : FS → FS
  | [] => []
  | kv :: fs => (if kv.1 = p then (kv.1, d) else kv) :: fsWrite p d fs

/-- `os.Rename src dst`: the file at `dst` is replaced by the one at `src`,
which disappears. -/
def fsRename (src dst : String) (fs : FS) : FS :=
  let d := (List.lookup src fs).getD ""
  fsWrite dst d (fs.filter (fun kv => kv.1 ≠ src))

/-- What `io.Copy(fileTemp, data)` does: either the whole stream `full` is
written, or it fails after writing a prefix `written` of it. -/
inductive CopyOutcome where
  | ok (full : String)
  | failed (written : String)
deriving DecidableEq, Repr

/-- Embedding of `saveAudio`: create the temp file (collision-avoided),
create the final file (collision-avoided), copy the stream into the temp
file, and only on a complete copy rename the temp file over the final one.
Returns the new file system and the error (`none` = success); `none` at the
outer level means the fuel for a collision loop ran out (not a program
behaviour). -/
def saveAudio (fuel : Nat) (fs : FS) (dir name : String) (copy : CopyOutcome) :
    Option (FS × Option String) :=
  let pathTemp := dir ++ "/" ++ name ++ ".part"
  let pathData := dir ++ "/" ++ name
  match nextFile fuel fs pathTemp with
  | none => none
  | some (pTemp, fs1) =>
    match nextFile fuel fs1 pathData with
    | none => none
    | some (pData, fs2) =>
      match copy with
      | .ok d => some (fsRename pTemp pData (fsWrite pTemp d fs2), none)
      | .failed w => some (fsWrite pTemp w fs2, some "copy error")

/-! ## CLI dispatch (main) -/

/-- What `main` decides to do from its arguments. -/
inductive CliAction where
  | usageExit (code : Nat)
  | runIn (dir : String)
deriving DecidableEq, Repr

/-- Does the action exit with a non-zero code? -/
def CliAction.exitsNonzero : CliAction → Bool
  | .usageExit c => c ≠ 0
  | .runIn _ => false

/-- Embedding of `main`'s argument switch:

    case n == 1 && (args[0] == "--help" || args[0] == "-h"): usage(0)
    case n == 1: dir = args[0]; ...
    default: usage(1)

(the `n == 1` branch goes on to require `dir` to exist and be a
directory; that check is after the dispatch modelled here). -/
def mainAction : List String → CliAction
  | [a] => if a = "--help" ∨ a = "-h" then .usageExit 0 else .runIn a
  | _ => .usageExit 1

/-! ## The worker clock and the log (downloadByHost timing, log)

`downloadByHost` records `dl.startedAt = time.Now()` immediately before the
HTTP GET; `log` later writes `dl.startedAt.Format(time.RFC3339)` for each
result.  Time is modelled as a natural-number clock advanced by each item's
processing duration. -/

/-- A queued item together with how long its processing will take and
whether it succeeds. -/
structure Item where
  itemUrl : String
  dur : Nat
  ok : Bool
deriving DecidableEq, Repr

/-- A completed download as the logger sees it. -/
structure DoneDl where
  dlUrl : String
  startedAt : Nat
  finishedAt : Nat
  ok : Bool
deriving DecidableEq, Repr

/-- The sequential worker loop with an explicit clock: each item's
`startedAt` is the clock value immediately before its GET begins, and the
clock advances by the item's duration before the next item starts. -/
def runWorker (t : Nat) : List Item → List DoneDl
  | [] => []
  | it :: its =>
    { dlUrl := it.itemUrl, startedAt := t, finishedAt := t + it.dur, ok := it.ok }
      :: runWorker (t + it.dur) its

/-- The instants at which the successive GETs begin. -/
def startInstants (t : Nat) : List Item → List Nat
  | [] => []
  | it :: its => t :: startInstants (t + it.dur) its

/-- Embedding of `log`: one appended record per download, carrying
`startedAt` as its timestamp, `1`/`0` for success/failure, and the URL. -/
def logRecords (dls : List DoneDl) : List (Nat × Nat × String) :=
  dls.map (fun d => (d.startedAt, if d.ok then 1 else 0, d.dlUrl))

/-! ## Theorems -/

/-- C7: for every completed fetch, the response body is closed exactly once
on every exit path of `downloadByHost`'s loop — once whenever a response
object exists (success, disk failure, or non-200 status alike), and zero
times when the transport failed and no response exists — so no stream is
leaked or double-closed. -/
theorem body_closed_exactly_once (fetch : URL → FetchResult) (save : URL → Option String)
    (dls : List URL) :
    (downloadByHost fetch save dls).map (fun s => s.closes)
      = dls.map (fun u => if (fetch u).isResp then 1 else 0) := by
  induction dls with
  | nil => rfl
  | cons u us ih =>
    simp only [downloadByHost, List.map_cons, List.map_map] at ih ⊢
    rw [List.cons.injEq]
    refine ⟨?_, ih⟩
    cases hf : fetch u with
    | netErr m => simp [processDownload, FetchResult.isResp]
    | resp st line body => simp [processDownload, FetchResult.isResp]

/-- C9 counterexample: invoked with no positional argument, the program
does not proceed with a default directory — it exits with a non-zero
code (the argument switch falls through to `usage(1)`). -/
theorem noArg_exits_nonzero : (mainAction []).exitsNonzero = true := by decide

/-- C9 amended: with no positional argument the program prints usage and
exits 1; `--help`/`-h` print usage and exit 0; exactly one other argument
is taken as the download directory; more than one argument exits 1. -/
theorem cli_requires_directory :
    mainAction [] = CliAction.usageExit 1 ∧
    mainAction ["--help"] = CliAction.usageExit 0 ∧
    mainAction ["-h"] = CliAction.usageExit 0 ∧
    (∀ d : String, ¬(d = "--help" ∨ d = "-h") → mainAction [d] = CliAction.runIn d) ∧
    (∀ (a b : String) (rest : List String), mainAction (a :: b :: rest) = CliAction.usageExit 1) := by
  refine ⟨by decide, by decide, by decide, ?_, ?_⟩
  · intro d hd
    simp only [mainAction]
    rw [if_neg hd]
  · intro a b rest
    rfl

/-- Witness for `cli_requires_directory` at a concrete directory
argument. -/
theorem cli_requires_directory_witness :
    mainAction ["/home/u/podcasts"] = CliAction.runIn "/home/u/podcasts" :=
  cli_requires_directory.2.2.2.1 "/home/u/podcasts" (by decide)

/-- C10: the timestamp on a download's appended log line is its
`startedAt` — the clock instant recorded immediately before its HTTP GET
began — and differs from its completion instant whenever the download took
any time at all. -/
theorem log_timestamp_is_startedAt (t : Nat) (items : List Item) (i : Nat)
    (hi : i < items.length) :
    ((logRecords (runWorker t items)).getD i (0, 0, "")).1 = (startInstants t items).getD i 0 ∧
    ((runWorker t items).getD i ⟨"", 0, 0, false⟩).startedAt = (startInstants t items).getD i 0 ∧
    ((items.getD i ⟨"", 0, false⟩).dur ≠ 0 →
      ((logRecords (runWorker t items)).getD i (0, 0, "")).1
        ≠ ((runWorker t items).getD i ⟨"", 0, 0, false⟩).finishedAt) := by
  induction items generalizing t i with
  | nil => exact absurd hi (by simp)
  | cons it its ih =>
    cases i with
    | zero =>
      refine ⟨rfl, rfl, ?_⟩
      intro hdur
      simp only [List.getD_cons_zero] at hdur
      show t ≠ t + it.dur
      omega
    | succ i =>
      have hi' : i < its.length := by simpa using hi
      have h3 := ih (t + it.dur) i hi'
      simpa only [runWorker, logRecords, List.map_cons, List.getD_cons_succ, startInstants]
        using h3

/-- Witness for `log_timestamp_is_startedAt` on a concrete two-item
schedule. -/
theorem log_timestamp_is_startedAt_witness :
    ((logRecords (runWorker 100 [⟨"u1", 5, true⟩, ⟨"u2", 3, false⟩])).getD 1 (0, 0, "")).1
        = (startInstants 100 [⟨"u1", 5, true⟩, ⟨"u2", 3, false⟩]).getD 1 0 ∧
      ((runWorker 100 [⟨"u1", 5, true⟩, ⟨"u2", 3, false⟩]).getD 1 ⟨"", 0, 0, false⟩).startedAt
        = (startInstants 100 [⟨"u1", 5, true⟩, ⟨"u2", 3, false⟩]).getD 1 0 ∧
      (([⟨"u1", 5, true⟩, ⟨"u2", 3, false⟩].getD 1 (⟨"", 0, false⟩ : Item)).dur ≠ 0 →
        ((logRecords (runWorker 100 [⟨"u1", 5, true⟩, ⟨"u2", 3, false⟩])).getD 1 (0, 0, "")).1
          ≠ ((runWorker 100 [⟨"u1", 5, true⟩, ⟨"u2", 3, false⟩]).getD 1 ⟨"", 0, 0, false⟩).finishedAt) :=
  log_timestamp_is_startedAt 100 [⟨"u1", 5, true⟩, ⟨"u2", 3, false⟩] 1 (by decide)

/-- C4 counterexample: a queue line with surrounding whitespace whose
download failed is not written back verbatim — `rewriteQueue` writes its
trimmed form, so the all-fail rewrite is not unchanged line-for-line. -/
theorem rewrite_not_verbatim :
    rewriteQueue [" http://h/a"] [⟨⟨"h", "http://h/a"⟩, "http://h/a", some "e"⟩]
        = ["http://h/a"] ∧
      (["http://h/a"] : List String) ≠ [" http://h/a"] := by
  exact ⟨by decide, by decide⟩

/-- C4 amended: on an all-failure result set the rewritten queue file is
the original with every line whitespace-trimmed (rather than verbatim),
and no line matching a succeeded download's stored `entry` (the trimmed
original line) survives the rewrite. -/
theorem rewrite_roundtrip :
    (∀ (fileLines : List String) (results : List DlRec),
      (∀ dl ∈ results, dl.err ≠ none) →
      rewriteQueue fileLines results = fileLines.map strTrim) ∧
    (∀ (fileLines : List String) (results : List DlRec) (line : String),
      line ∈ rewriteQueue fileLines results →
      ∀ dl ∈ results, dl.err = none → dl.entry ≠ line) := by
  constructor
  · intro fileLines results hfail
    have hnone : results.filter (fun dl => dl.err = none) = [] := by
      rw [List.filter_eq_nil_iff]
      intro dl hdl
      simpa using hfail dl hdl
    simp only [rewriteQueue, hnone, List.map_nil]
    apply List.filter_eq_self.mpr
    intro a _
    simp
  · intro fileLines results line hline dl hdl hok heq
    have hmem := List.mem_filter.mp hline
    have hnot : line ∉ (results.filter (fun dl => dl.err = none)).map (fun dl => dl.entry) := by
      simpa using hmem.2
    exact hnot (heq ▸ List.mem_map_of_mem _ (List.mem_filter.mpr ⟨hdl, by simp [hok]⟩))

/-- Witness for `rewrite_roundtrip`: an all-fail rewrite trims the padded
line, and a succeeded entry is distinct from every surviving line. -/
theorem rewrite_roundtrip_witness :
    rewriteQueue [" a ", "b"] [⟨⟨"h", "u"⟩, "a", some "e"⟩] = ["a", "b"] ∧
      (⟨⟨"h", "u"⟩, "a", none⟩ : DlRec).entry ≠ "b" := by
  constructor
  · have h1 := rewrite_roundtrip.1 [" a ", "b"] [⟨⟨"h", "u"⟩, "a", some "e"⟩]
      (by intro dl hdl; simp at hdl; simp [hdl])
    rw [h1]
    decide
  · exact rewrite_roundtrip.2 ["a", "b"] [⟨⟨"h", "u"⟩, "a", none⟩] "b" (by decide)
      ⟨⟨"h", "u"⟩, "a", none⟩ (by decide) rfl

/-! ### Queue parsing lemmas (C3, C8) -/

/-- Every field produced by `fieldsAux` is a nonempty character list. -/
theorem mem_fieldsAux_ne_nil :
    ∀ (cs cur f : List Char), f ∈ fieldsAux cs cur → f ≠ []
  | [], cur, f => by
    intro hf
    by_cases hc : cur = []
    · simp [fieldsAux, hc] at hf
    · simp only [fieldsAux, if_neg hc, List.mem_singleton] at hf
      subst hf
      simpa using hc
  | c :: cs, cur, f => by
    intro hf
    by_cases hw : c.isWhitespace
    · by_cases hc : cur = []
      · simp only [fieldsAux, if_pos hw, if_pos hc] at hf
        exact mem_fieldsAux_ne_nil cs [] f hf
      · simp only [fieldsAux, if_pos hw, if_neg hc, List.mem_cons] at hf
        rcases hf with hf | hf
        · subst hf; simpa using hc
        · exact mem_fieldsAux_ne_nil cs [] f hf
    · simp only [fieldsAux, if_neg hw] at hf
      exact mem_fieldsAux_ne_nil cs (c :: cur) f hf

/-- `strings.Fields` never yields the empty string as a field. -/
theorem strFields_ne_empty (s t : String) (ht : t ∈ strFields s) : t ≠ "" := by
  obtain ⟨f, hf, rfl⟩ := List.mem_map.mp ht
  intro hcontra
  exact mem_fieldsAux_ne_nil s.data [] f hf (congrArg String.data hcontra)

/-- Membership in `dedupFirstGo`: kept iff present and not already seen. -/
theorem mem_dedupFirstGo (x : String) :
    ∀ (l seen : List String), x ∈ dedupFirstGo seen l ↔ x ∈ l ∧ x ∉ seen
  | [], seen => by simp [dedupFirstGo]
  | y :: xs, seen => by
    by_cases hy : y ∈ seen
    · rw [dedupFirstGo, if_pos hy, mem_dedupFirstGo x xs seen, List.mem_cons]
      constructor
      · rintro ⟨hxs, hns⟩; exact ⟨Or.inr hxs, hns⟩
      · rintro ⟨hor, hns⟩
        rcases hor with rfl | hxs
        · exact absurd hy hns
        · exact ⟨hxs, hns⟩
    · rw [dedupFirstGo, if_neg hy]
      simp only [List.mem_cons, mem_dedupFirstGo x xs (y :: seen)]
      constructor
      · rintro (rfl | ⟨hxs, hns⟩)
        · exact ⟨Or.inl rfl, hy⟩
        · exact ⟨Or.inr hxs, fun hx => hns (Or.inr hx)⟩
      · rintro ⟨rfl | hxs, hns⟩
        · exact Or.inl rfl
        · by_cases hxy : x = y
          · exact Or.inl hxy
          · exact Or.inr ⟨hxs, fun hx => Or.elim hx hxy hns⟩

/-- `dedupFirstGo` produces a list without duplicates. -/
theorem nodup_dedupFirstGo :
    ∀ (l seen : List String), (dedupFirstGo seen l).Nodup
  | [], seen => by simp [dedupFirstGo]
  | y :: xs, seen => by
    by_cases hy : y ∈ seen
    · rw [dedupFirstGo, if_pos hy]
      exact nodup_dedupFirstGo xs seen
    · rw [dedupFirstGo, if_neg hy]
      refine List.nodup_cons.mpr ⟨?_, nodup_dedupFirstGo xs (y :: seen)⟩
      intro hmem
      exact ((mem_dedupFirstGo y xs (y :: seen)).mp hmem).2 (List.mem_cons_self y seen)

/-- `dedupFirstGo` only depends on the seen set up to membership. -/
theorem dedupFirstGo_congr :
    ∀ (l s t : List String), (∀ x, x ∈ s ↔ x ∈ t) →
      dedupFirstGo s l = dedupFirstGo t l
  | [], _, _, _ => rfl
  | y :: xs, s, t, h => by
    by_cases hy : y ∈ s
    · rw [dedupFirstGo, if_pos hy, dedupFirstGo, if_pos ((h y).mp hy)]
      exact dedupFirstGo_congr xs s t h
    · rw [dedupFirstGo, if_neg hy, dedupFirstGo, if_neg (fun hc => hy ((h y).mpr hc))]
      refine congrArg _ (dedupFirstGo_congr xs (y :: s) (y :: t) ?_)
      intro x
      simp only [List.mem_cons]
      exact or_congr Iff.rfl (h x)

/-- The result of `readQueueGo`: it succeeds on blank-line-free input and
keeps exactly the first occurrence of each URL token, in order. -/
theorem readQueueGo_spec (parse : String → URL) :
    ∀ (ls seen : List String),
      (∀ l ∈ ls, strFields (strTrim l) ≠ []) →
      ∃ es, readQueueGo parse seen ls = some es ∧
        es.map (fun e => (strFields e.entry).headD "")
          = dedupFirstGo seen (ls.map lineTok)
  | [], _, _ => ⟨[], rfl, rfl⟩
  | l :: ls, seen, h => by
    have hl : strFields (strTrim l) ≠ [] := h l (List.mem_cons_self l ls)
    have hrest : ∀ x ∈ ls, strFields (strTrim x) ≠ [] :=
      fun x hx => h x (List.mem_cons_of_mem l hx)
    cases hf : strFields (strTrim l) with
    | nil => exact absurd hf hl
    | cons urlstr rest =>
      have hne : urlstr ≠ "" :=
        strFields_ne_empty (strTrim l) urlstr (hf ▸ List.mem_cons_self urlstr rest)
      have htok : lineTok l = urlstr := by
        simp [lineTok, hf]
      by_cases hseen : urlstr ∈ seen
      · obtain ⟨es, heq, hmap⟩ := readQueueGo_spec parse ls seen hrest
        refine ⟨es, ?_, ?_⟩
        · simp only [readQueueGo, hf]
          rw [if_pos (Or.inr hseen)]
          exact heq
        · rw [hmap, List.map_cons, htok, dedupFirstGo, if_pos hseen]
      · obtain ⟨es, heq, hmap⟩ := readQueueGo_spec parse ls (urlstr :: seen) hrest
        refine ⟨{ url := parse urlstr, entry := strTrim l } :: es, ?_, ?_⟩
        · simp only [readQueueGo, hf]
          rw [if_neg (by push_neg; exact ⟨hne, hseen⟩), heq]
        · rw [List.map_cons, List.map_cons, htok, dedupFirstGo, if_neg hseen, hmap]
          simp [hf]

/-- C3 amended: for every queue file none of whose lines is blank (every
line has a first whitespace-delimited token), `readQueue` returns exactly
one `QueueEntry` per distinct URL token, in first-occurrence order, with
duplicates judged by exact string equality of the token. -/
theorem readQueue_one_entry_per_token (parse : String → URL) (lines : List String)
    (hnb : ∀ l ∈ lines, strFields (strTrim l) ≠ []) :
    ∃ es, readQueue parse lines = some es ∧
      es.map (fun e => (strFields e.entry).headD "") = dedupFirst (lines.map lineTok) ∧
      (es.map (fun e => (strFields e.entry).headD "")).Nodup ∧
      (∀ t, t ∈ es.map (fun e => (strFields e.entry).headD "") ↔ t ∈ lines.map lineTok) := by
  obtain ⟨es, heq, hmap⟩ := readQueueGo_spec parse lines [] hnb
  refine ⟨es, heq, hmap, ?_, ?_⟩
  · rw [hmap]
    exact nodup_dedupFirstGo _ _
  · intro t
    rw [hmap]
    rw [mem_dedupFirstGo]
    simp

/-- Witness for `readQueue_one_entry_per_token` on a queue file with one
duplicated token. -/
theorem readQueue_one_entry_per_token_witness :
    (∀ l ∈ ["u a", "v", "u b"], strFields (strTrim l) ≠ []) ∧
    (∃ es, readQueue (fun s => ⟨s, s⟩) ["u a", "v", "u b"] = some es ∧
      es.map (fun e => (strFields e.entry).headD "")
        = dedupFirst (["u a", "v", "u b"].map lineTok) ∧
      (es.map (fun e => (strFields e.entry).headD "")).Nodup ∧
      (∀ t, t ∈ es.map (fun e => (strFields e.entry).headD "")
        ↔ t ∈ ["u a", "v", "u b"].map lineTok)) :=
  ⟨by decide, readQueue_one_entry_per_token (fun s => ⟨s, s⟩) ["u a", "v", "u b"] (by decide)⟩

/-- C3 counterexample: on a queue file containing a blank line, `readQueue`
returns no entry list at all — `strings.Fields(line)[0]` panics, modelled
as `none` — instead of one entry for the file's single distinct token. -/
theorem readQueue_fails_on_blank_line :
    readQueue (fun s => ⟨s, s⟩) ["http://h/a", ""] = none := by decide

/-- C8: evaluated on a queue file with a whitespace-only line, `readQueue`
does not skip the line and keep going — indexing `strings.Fields(line)[0]`
panics (modelled as `none`).  The spec, the older `readUrls`'s explicit
blank-line skip, and the dead `urlstr == ""` guard all show the intended
behaviour was to skip such lines. -/
theorem readQueue_panics_on_whitespace_line :
    readQueue (fun s => ⟨s, s⟩) ["https://example.com/a.mp3", "   "] = none := by decide

/-! ### AudioWriter lemmas (C5, C6) -/

/-- What the `nextFile` retry loop yields from candidate index `i` on: the
first unused candidate, after passing only used ones. -/
theorem nextFileGo_spec (fs : FS) (base : String) :
    ∀ (fuel i : Nat) (p : String) (fs' : FS),
      nextFileGo fs base fuel (cand base i) (i + 1) = some (p, fs') →
      ∃ k, i ≤ k ∧ p = cand base k ∧ p ∉ fs.map Prod.fst ∧ fs' = (p, "") :: fs ∧
        ∀ j, i ≤ j → j < k → cand base j ∈ fs.map Prod.fst := by
  intro fuel
  induction fuel with
  | zero =>
    intro i p fs' h
    exact absurd h (by simp [nextFileGo])
  | succ fuel ih =>
    intro i p fs' h
    rw [nextFileGo] at h
    by_cases hin : cand base i ∈ fs.map Prod.fst
    · rw [if_pos hin] at h
      have h' : nextFileGo fs base fuel (cand base (i + 1)) ((i + 1) + 1) = some (p, fs') := h
      obtain ⟨k, hik, hp, hnp, hfs, hall⟩ := ih (i + 1) p fs' h'
      refine ⟨k, by omega, hp, hnp, hfs, ?_⟩
      intro j hij hjk
      by_cases hji : j = i
      · subst hji; exact hin
      · exact hall j (by omega) hjk
    · rw [if_neg hin] at h
      simp only [Option.some.injEq, Prod.mk.injEq] at h
      obtain ⟨rfl, rfl⟩ := h
      exact ⟨i, Nat.le_refl i, rfl, hin, rfl, fun j hij hji => absurd hij (by omega)⟩

/-- The contract of `nextFile`: the created path is the first candidate not
already on disk, and the file system gains exactly that (empty) file. -/
theorem nextFile_spec (fuel : Nat) (fs : FS) (path p : String) (fs' : FS)
    (h : nextFile fuel fs path = some (p, fs')) :
    p ∉ fs.map Prod.fst ∧ fs' = (p, "") :: fs ∧
      ∃ k, p = cand path k ∧ ∀ j, j < k → cand path j ∈ fs.map Prod.fst := by
  have h0 : nextFileGo fs path fuel (cand path 0) (0 + 1) = some (p, fs') := h
  obtain ⟨k, _, hp, hnp, hfs, hall⟩ := nextFileGo_spec fs path fuel 0 p fs' h0
  exact ⟨hnp, hfs, k, hp, fun j hj => hall j (Nat.zero_le j) hj⟩

/-- Writing to a path that is not on disk changes nothing. -/
theorem fsWrite_not_mem (p d : String) :
    ∀ fs : FS, p ∉ fs.map Prod.fst → fsWrite p d fs = fs
  | [], _ => rfl
  | kv :: fs, h => by
    simp only [List.map_cons, List.mem_cons] at h
    push_neg at h
    rw [fsWrite, if_neg (fun hc => h.1 hc.symm), fsWrite_not_mem p d fs h.2]

/-- C6: the AudioWriter never overwrites an existing file.  First, whenever
the collision loop creates a file, the chosen path was unused: it is the
first free candidate among `path`, `path.1`, `path.2`, … (each earlier
candidate already existed), taken independently for the temp and final
paths.  Second, saving the same basename twice leaves two distinct files on
disk, the second one suffixed `.1`. -/
theorem audioWriter_never_overwrites :
    (∀ (fuel : Nat) (fs : FS) (path p : String) (fs' : FS),
      nextFile fuel fs path = some (p, fs') →
      p ∉ fs.map Prod.fst ∧ fs' = (p, "") :: fs ∧
        ∃ k, p = cand path k ∧ ∀ j, j < k → cand path j ∈ fs.map Prod.fst) ∧
    saveAudio 4 [] "d" "a" (.ok "ONE") = some ([("d/a", "ONE")], none) ∧
    saveAudio 4 [("d/a", "ONE")] "d" "a" (.ok "TWO")
      = some ([("d/a.1", "TWO"), ("d/a", "ONE")], none) :=
  ⟨fun fuel fs path p fs' h => nextFile_spec fuel fs path p fs' h, by decide, by decide⟩

/-- Witness for `audioWriter_never_overwrites` at a file system already
holding the intended path: the returned path is the fresh suffixed
candidate. -/
theorem audioWriter_never_overwrites_witness :
    "b.1" ∉ ([("b", "x")] : FS).map Prod.fst ∧
      ([("b.1", ""), ("b", "x")] : FS) = ("b.1", "") :: [("b", "x")] ∧
      ∃ k, "b.1" = cand "b" k ∧ ∀ j, j < k → cand "b" j ∈ ([("b", "x")] : FS).map Prod.fst :=
  audioWriter_never_overwrites.1 3 [("b", "x")] "b" "b.1" [("b.1", ""), ("b", "x")] (by decide)

/-- C5: when the stream copy fails, `saveAudio` reports the error and
performs no rename: the final path holds only the empty file pre-created by
the collision loop (none of the stream's bytes), and the temporary file
remains on disk holding exactly the partially written data. -/
theorem saveAudio_fail_no_rename (fuel : Nat) (fs : FS) (dir name w : String)
    (fs' : FS) (e : Option String)
    (h : saveAudio fuel fs dir name (.failed w) = some (fs', e)) :
    ∃ pTemp pData : String,
      nextFile fuel fs (dir ++ "/" ++ name ++ ".part") = some (pTemp, (pTemp, "") :: fs) ∧
      nextFile fuel ((pTemp, "") :: fs) (dir ++ "/" ++ name)
        = some (pData, (pData, "") :: (pTemp, "") :: fs) ∧
      e = some "copy error" ∧
      fs' = (pData, "") :: (pTemp, w) :: fs ∧
      List.lookup pData fs' = some "" ∧
      List.lookup pTemp fs' = some w := by
  simp only [saveAudio] at h
  rcases hT : nextFile fuel fs (dir ++ "/" ++ name ++ ".part") with _ | ⟨pTemp, fs1⟩
  · rw [hT] at h
    simp at h
  · rw [hT] at h
    dsimp only at h
    rcases hD : nextFile fuel fs1 (dir ++ "/" ++ name) with _ | ⟨pData, fs2⟩
    · rw [hD] at h
      simp at h
    · rw [hD] at h
      dsimp only at h
      simp only [Option.some.injEq, Prod.mk.injEq] at h
      obtain ⟨hfs', he⟩ := h
      obtain ⟨hTnot, hfs1, -⟩ := nextFile_spec fuel fs _ pTemp fs1 hT
      subst hfs1
      obtain ⟨hDnot, hfs2, -⟩ := nextFile_spec fuel _ _ pData fs2 hD
      subst hfs2
      simp only [List.map_cons, List.mem_cons] at hDnot
      push_neg at hDnot
      obtain ⟨hneq, hDfs⟩ := hDnot
      have hwrite : fsWrite pTemp w ((pData, "") :: (pTemp, "") :: fs)
          = (pData, "") :: (pTemp, w) :: fs := by
        rw [fsWrite, if_neg hneq, fsWrite, if_pos rfl, fsWrite_not_mem pTemp w fs hTnot]
      rw [hwrite] at hfs'
      have hne' : pTemp ≠ pData := Ne.symm hneq
      refine ⟨pTemp, pData, rfl, hD, he.symm, hfs'.symm, ?_, ?_⟩
      · rw [← hfs']
        simp [List.lookup]
      · rw [← hfs']
        have hb : (pTemp == pData) = false := beq_eq_false_iff_ne.mpr hne'
        simp [List.lookup, hb]

/-- Witness for `saveAudio_fail_no_rename` on a concrete failed copy. -/
theorem saveAudio_fail_no_rename_witness :
    ∃ pTemp pData : String,
      nextFile 4 ([] : FS) ("d" ++ "/" ++ "a" ++ ".part") = some (pTemp, (pTemp, "") :: []) ∧
      nextFile 4 ((pTemp, "") :: ([] : FS)) ("d" ++ "/" ++ "a")
        = some (pData, (pData, "") :: (pTemp, "") :: []) ∧
      (some "copy error" : Option String) = some "copy error" ∧
      ([("d/a", ""), ("d/a.part", "PART")] : FS) = (pData, "") :: (pTemp, "PART") :: [] ∧
      List.lookup pData ([("d/a", ""), ("d/a.part", "PART")] : FS) = some "" ∧
      List.lookup pTemp ([("d/a", ""), ("d/a.part", "PART")] : FS) = some "PART" :=
  saveAudio_fail_no_rename 4 [] "d" "a" "PART" [("d/a", ""), ("d/a.part", "PART")]
    (some "copy error") (by decide)

/-! ### Host partition lemmas (C2) -/

/-- Keys after inserting one entry: unchanged if its host already has a
group, otherwise the host is appended. -/
theorem map_fst_insertEntry (e : QueueEntry) :
    ∀ acc : List (String × List QueueEntry),
      (insertEntry acc e).map Prod.fst
        = if e.host ∈ acc.map Prod.fst then acc.map Prod.fst
          else acc.map Prod.fst ++ [e.host]
  | [] => by simp [insertEntry]
  | (k, g) :: rest => by
    by_cases hh : e.host = k
    · rw [insertEntry, if_pos hh]
      simp [hh]
    · rw [insertEntry, if_neg hh]
      simp only [List.map_cons]
      rw [map_fst_insertEntry e rest]
      by_cases hmem : e.host ∈ rest.map Prod.fst
      · rw [if_pos hmem, if_pos (by simp [List.mem_cons, hmem])]
      · rw [if_neg hmem, if_neg (by simp [List.mem_cons, hh, hmem]), List.cons_append]

/-- Lookup after inserting one entry: the entry is appended to its own
host's group (created if absent); other hosts are untouched. -/
theorem alookup_insertEntry (e : QueueEntry) :
    ∀ (acc : List (String × List QueueEntry)) (h' : String),
      alookup h' (insertEntry acc e)
        = if h' = e.host then some (((alookup h' acc).getD []) ++ [e])
          else alookup h' acc
  | [], h' => by
    by_cases hh : h' = e.host
    · simp [insertEntry, alookup, hh]
    · simp [insertEntry, alookup, hh]
  | (k, v) :: rest, h' => by
    by_cases hek : e.host = k
    · rw [insertEntry, if_pos hek]
      by_cases hh : h' = k
      · rw [alookup, if_pos hh, alookup, if_pos hh, if_pos (hh.trans hek.symm)]
        rfl
      · rw [alookup, if_neg hh, alookup, if_neg hh, if_neg (fun hc => hh (hc.trans hek))]
    · rw [insertEntry, if_neg hek]
      by_cases hh : h' = k
      · rw [alookup, if_pos hh, if_neg (fun hc => hek (hc.symm.trans hh)), alookup, if_pos hh]
      · rw [alookup, if_neg hh, alookup_insertEntry e rest h', alookup, if_neg hh]

/-- The loop of `downloadAll`: the group under host `h` after processing
`es` is whatever was there before followed by all of `es`'s entries with
host `h`, in order. -/
theorem alookup_groupAux :
    ∀ (es : List QueueEntry) (acc : List (String × List QueueEntry)) (h : String),
      alookup h (groupAux es acc)
        = match alookup h acc with
          | some g => some (g ++ es.filter (fun e => e.host = h))
          | none =>
            if es.filter (fun e => e.host = h) = [] then none
            else some (es.filter (fun e => e.host = h))
  | [], acc, h => by
    rw [groupAux]
    cases alookup h acc <;> simp
  | e :: es, acc, h => by
    rw [groupAux, alookup_groupAux es (insertEntry acc e) h,
      alookup_insertEntry e acc h]
    by_cases heh : e.host = h
    · rw [if_pos heh.symm]
      have hfil : (e :: es).filter (fun x => x.host = h)
          = e :: es.filter (fun x => x.host = h) := by
        simp [List.filter_cons, heh]
      rw [hfil]
      cases hacc : alookup h acc with
      | some g => simp
      | none => simp
    · rw [if_neg (fun hc => heh hc.symm)]
      have hfil : (e :: es).filter (fun x => x.host = h)
          = es.filter (fun x => x.host = h) := by
        simp [List.filter_cons, heh]
      rw [hfil]

/-- The keys accumulated by `downloadAll`'s loop: previous keys followed by
the not-yet-seen hosts in first-occurrence order. -/
theorem map_fst_groupAux :
    ∀ (es : List QueueEntry) (acc : List (String × List QueueEntry)),
      (groupAux es acc).map Prod.fst
        = acc.map Prod.fst
            ++ dedupFirstGo (acc.map Prod.fst) (es.map QueueEntry.host)
  | [], acc => by simp [groupAux, dedupFirstGo]
  | e :: es, acc => by
    rw [groupAux, map_fst_groupAux es (insertEntry acc e), map_fst_insertEntry e acc]
    by_cases hmem : e.host ∈ acc.map Prod.fst
    · rw [if_pos hmem]
      simp only [List.map_cons]
      rw [dedupFirstGo, if_pos hmem]
    · rw [if_neg hmem]
      simp only [List.map_cons]
      rw [dedupFirstGo, if_neg hmem,
        dedupFirstGo_congr (es.map QueueEntry.host)
          (acc.map Prod.fst ++ [e.host]) (e.host :: acc.map Prod.fst)
          (by intro x; simp [List.mem_append, List.mem_cons, or_comm]),
        List.append_assoc]
      rfl

/-- The host partition's keys are the distinct hosts in first-occurrence
order. -/
theorem keys_groupByHost (es : List QueueEntry) :
    (groupByHost es).map Prod.fst = dedupFirst (es.map QueueEntry.host) := by
  have h := map_fst_groupAux es []
  simpa [groupByHost, dedupFirst] using h

/-- The group stored under a host is exactly the ordered sublist of entries
with that host. -/
theorem alookup_groupByHost (es : List QueueEntry) (h : String) :
    alookup h (groupByHost es)
      = if es.filter (fun e => e.host = h) = [] then none
        else some (es.filter (fun e => e.host = h)) := by
  have h1 := alookup_groupAux es [] h
  simpa [groupByHost, alookup] using h1

/-- C2: `downloadAll` partitions the entry list into exactly one group per
distinct URL host — the group list's keys are the distinct hosts, without
duplicates, in first-seen order — each group being the entries of that
host in their original relative order; one worker is launched per group,
so the worker count is the number of distinct hosts. -/
theorem downloadAll_partitions_by_host (es : List QueueEntry) :
    (groupByHost es).map Prod.fst = dedupFirst (es.map QueueEntry.host) ∧
    ((groupByHost es).map Prod.fst).Nodup ∧
    (∀ h, h ∈ (groupByHost es).map Prod.fst ↔ h ∈ es.map QueueEntry.host) ∧
    (∀ h, alookup h (groupByHost es)
      = if es.filter (fun e => e.host = h) = [] then none
        else some (es.filter (fun e => e.host = h))) ∧
    numWorkers es = (dedupFirst (es.map QueueEntry.host)).length := by
  refine ⟨keys_groupByHost es, ?_, ?_, alookup_groupByHost es, ?_⟩
  · rw [keys_groupByHost es]
    exact nodup_dedupFirstGo _ _
  · intro h
    rw [keys_groupByHost es, dedupFirst, mem_dedupFirstGo]
    simp
  · have hlen := congrArg List.length (keys_groupByHost es)
    simpa [numWorkers] using hlen

/-! ### Serialization lemmas (C1) -/

/-- Every event of a worker's trace carries that worker's host. -/
theorem evHost_of_mem_workerTraceFrom (h : String) :
    ∀ (k i : Nat) (ev : Ev), ev ∈ workerTraceFrom h i k → ev.evHost = h
  | 0, i, ev => by
    intro hev
    simp [workerTraceFrom] at hev
  | k + 1, i, ev => by
    intro hev
    rw [workerTraceFrom] at hev
    rcases hev with _ | ⟨_, hev⟩
    · rfl
    · rcases hev with _ | ⟨_, hev⟩
      · rfl
      · exact evHost_of_mem_workerTraceFrom h k (i + 1) ev hev

/-- Along any prefix of a sequential worker trace, at most one more item
has started than has finished. -/
theorem count_le_of_pre_workerTraceFrom (h : String) :
    ∀ (k i : Nat) (l : List Ev), l <+: workerTraceFrom h i k →
      l.countP Ev.isStartEv ≤ l.countP (fun e => !e.isStartEv) + 1
  | 0, i, l => by
    intro hl
    rw [workerTraceFrom] at hl
    rw [List.prefix_nil.mp hl]
    simp
  | k + 1, i, l => by
    intro hl
    rw [workerTraceFrom] at hl
    rcases List.prefix_cons_iff.mp hl with rfl | ⟨t, rfl, ht⟩
    · simp
    · rcases List.prefix_cons_iff.mp ht with rfl | ⟨t', rfl, ht'⟩
      · simp [List.countP_cons, Ev.isStartEv]
      · have ih := count_le_of_pre_workerTraceFrom h k (i + 1) t' ht'
        simp [List.countP_cons, Ev.isStartEv] at ih ⊢
        omega

/-- In an interleaving, every tagged event belongs to the trace of the
worker it is tagged with. -/
theorem interleaving_origin (traces : List (List Ev)) (tagged : List (Nat × Ev))
    (hI : IsInterleaving traces tagged) :
    ∀ p ∈ tagged, p.2 ∈ traces.getD p.1 [] := by
  intro p hp
  obtain ⟨hbound, hproj⟩ := hI
  have hj : p.1 < traces.length := hbound p hp
  have hfil : p ∈ tagged.filter (fun q => q.1 == p.1) :=
    List.mem_filter.mpr ⟨hp, by simp⟩
  have hmem : p.2 ∈ (tagged.filter (fun q => q.1 == p.1)).map Prod.snd :=
    List.mem_map_of_mem _ hfil
  rwa [hproj p.1 (List.mem_range.mpr hj)] at hmem

/-- The events of the `j`-th worker trace of a run all carry the `j`-th
group's host. -/
theorem evHost_of_mem_trace (es : List QueueEntry) (j : Nat)
    (hj : j < (tracesOf es).length) (ev : Ev) (hev : ev ∈ (tracesOf es).getD j []) :
    ev.evHost = ((groupByHost es).map Prod.fst).getD j "" := by
  have hjg : j < (groupByHost es).length := by
    simpa [tracesOf] using hj
  have hjk : j < ((groupByHost es).map Prod.fst).length := by
    simpa using hjg
  rw [List.getD_eq_getElem _ _ hj] at hev
  rw [List.getD_eq_getElem _ _ hjk]
  simp only [tracesOf, List.getElem_map] at hev
  simp only [List.getElem_map]
  exact evHost_of_mem_workerTraceFrom _ _ _ ev hev

/-- C1: in every possible interleaved schedule of a run of `downloadAll`,
downloads of the same host never overlap: at any instant (any schedule
prefix) at most one item of any given host has started but not finished,
because each host's single worker fully completes an item before starting
the next. -/
theorem perHost_serialization (es : List QueueEntry) (tagged : List (Nat × Ev))
    (hI : IsInterleaving (tracesOf es) tagged) (h : String) (n : Nat) :
    nStart h ((tagged.map Prod.snd).take n)
      ≤ nDone h ((tagged.map Prod.snd).take n) + 1 := by
  obtain ⟨hbound, hproj⟩ := hI
  unfold nStart nDone
  have hpre : ((tagged.map Prod.snd).take n).filter (fun e => e.evHost == h)
      <+: (tagged.map Prod.snd).filter (fun e => e.evHost == h) :=
    List.IsPrefix.filter _ (List.take_prefix n (tagged.map Prod.snd))
  by_cases hmem : h ∈ (groupByHost es).map Prod.fst
  · -- h is one of the hosts: its events in the schedule are exactly the
    -- trace of its worker, so any schedule prefix projects to a prefix of
    -- that sequential trace.
    obtain ⟨j, hjk, hkeyj⟩ := List.mem_iff_getElem.mp hmem
    have hjg : j < (groupByHost es).length := by simpa using hjk
    have hjt : j < (tracesOf es).length := by simpa [tracesOf] using hjg
    have hknodup : ((groupByHost es).map Prod.fst).Nodup := by
      rw [keys_groupByHost es]
      exact nodup_dedupFirstGo _ _
    have hcong : ∀ q ∈ tagged,
        ((fun e => e.evHost == h) ∘ Prod.snd) q = (fun q : Nat × Ev => q.1 == j) q := by
      intro q hq
      have horq := interleaving_origin (tracesOf es) tagged ⟨hbound, hproj⟩ q hq
      have hjq : q.1 < (tracesOf es).length := hbound q hq
      have hjqk : q.1 < ((groupByHost es).map Prod.fst).length := by
        simpa [tracesOf] using hjq
      have hhost := evHost_of_mem_trace es q.1 hjq q.2 horq
      show (q.2.evHost == h) = (q.1 == j)
      rw [hhost, List.getD_eq_getElem _ _ hjqk]
      by_cases hqj : q.1 = j
      · subst hqj
        rw [hkeyj]
        simp
      · have hne : ((groupByHost es).map Prod.fst)[q.1] ≠ h := by
          intro hc
          exact hqj ((List.Nodup.getElem_inj_iff hknodup).mp (hc.trans hkeyj.symm))
        rw [beq_eq_false_iff_ne.mpr hne, beq_eq_false_iff_ne.mpr hqj]
    have hfilσ : (tagged.map Prod.snd).filter (fun e => e.evHost == h)
        = (tracesOf es).getD j [] := by
      rw [List.filter_map, List.filter_congr hcong]
      exact hproj j (List.mem_range.mpr hjt)
    have htr : (tracesOf es).getD j []
        = workerTrace ((groupByHost es)[j]).1 ((groupByHost es)[j]).2.length := by
      rw [List.getD_eq_getElem _ _ hjt]
      simp [tracesOf, List.getElem_map]
    rw [hfilσ, htr] at hpre
    exact count_le_of_pre_workerTraceFrom _ _ 0 _ hpre
  · -- h is not a host of the run: it has no events at all.
    have hnil : (tagged.map Prod.snd).filter (fun e => e.evHost == h) = [] := by
      rw [List.filter_eq_nil_iff]
      intro e he
      obtain ⟨p, hp, rfl⟩ := List.mem_map.mp he
      have horq := interleaving_origin (tracesOf es) tagged ⟨hbound, hproj⟩ p hp
      have hjq : p.1 < (tracesOf es).length := hbound p hp
      have hjqk : p.1 < ((groupByHost es).map Prod.fst).length := by
        simpa [tracesOf] using hjq
      have hhost := evHost_of_mem_trace es p.1 hjq p.2 horq
      have hin : p.2.evHost ∈ (groupByHost es).map Prod.fst := by
        rw [hhost, List.getD_eq_getElem _ _ hjqk]
        exact List.getElem_mem _
      intro hc
      rw [eq_of_beq hc] at hin
      exact hmem hin
    rw [hnil] at hpre
    rw [List.prefix_nil.mp hpre]
    simp

/-- Witness for `perHost_serialization` on a concrete two-host run with a
genuinely interleaved schedule. -/
theorem perHost_serialization_witness :
    nStart "a" ((([(0, Ev.start "a" 0), (1, Ev.start "b" 0), (1, Ev.done "b" 0),
        (0, Ev.done "a" 0)]).map Prod.snd).take 3)
      ≤ nDone "a" ((([(0, Ev.start "a" 0), (1, Ev.start "b" 0), (1, Ev.done "b" 0),
        (0, Ev.done "a" 0)]).map Prod.snd).take 3) + 1 :=
  perHost_serialization
    [⟨⟨"a", "http://a/1"⟩, "http://a/1"⟩, ⟨⟨"b", "http://b/1"⟩, "http://b/1"⟩]
    [(0, Ev.start "a" 0), (1, Ev.start "b" 0), (1, Ev.done "b" 0), (0, Ev.done "a" 0)]
    (by decide) "a" 3

end NewsbDl
